import Mathlib

/-!
  # KZG polynomial-commitment core of mdehoog/go-ethereum — shallow embedding

  This file embeds, in Lean 4, the EIP-4844 KZG code under `src/crypto/kzg`
  and `src/crypto/agg_kzg` of the repository: the evaluation domain
  (`initDomain`), big-integer modular arithmetic helpers (`blsModInv`,
  `blsDiv`), barycentric evaluation (`EvaluatePolyInEvaluationForm`),
  linear combination (`MatrixLinComb`), the Fiat–Shamir challenge derivation
  (`BytesToBLSField`, `HashToBLSField`), versioned hashes
  (`KZGToVersionedHash`, in both its SHA-256 and Keccak-256 variants),
  proof generation (`ComputeKZGProof`), aggregation entry points, and the
  bit-reversal permutation applied to the trusted setup.

  Conventions of the embedding:
  * A BLS12-381 scalar-field element (`bls.Fr`) is represented by its
    canonical integer value, a `Nat` below `blsModulus`.
  * Go `math/big.Int` values are represented by `Int`; `big.Int.Mod` and
    `big.Int.Div` are Euclidean, exactly Lean's `Int.emod` / `Int.ediv`.
  * Bytes are `Nat`s below 256; byte strings are `List Nat`.
  * Go runtime panics (out-of-range indexing) are modelled by `Option`:
    `none` is a panic. Go `error` returns are modelled by `Except String`.
  * Elliptic-curve points and their operations are outside the crypto core
    (the spec treats the BLS12-381 library as an opaque primitive), so
    the code touching G1 is parametrised by a `G1Ops` structure carrying
    the point type, (de)compression, and multi-scalar multiplication.
-/

/-! ## Protocol constants -/

/-- The BLS12-381 scalar-field modulus, the exact hex literal that
`initDomain` in `src/crypto/kzg/util.go` parses into `BLSModulus`. -/
def blsModulus : Nat :=
  0x73eda753299d7d483339d80809a1d80553bda402fffe5bfeffffffff00000001

/-- Modelled from the spec: `params.FieldElementsPerBlob` (the `params`
package is not under `src/`); the protocol constant `N`, the number of
field elements per blob, 4096. -/
def fieldElementsPerBlob : Nat := 4096

/-- Modelled from the spec: `params.BlobCommitmentVersionKZG` (the `params`
package is not under `src/`); the protocol-fixed version tag byte written
into byte 0 of a versioned hash. -/
def blobCommitmentVersionKZG : Nat := 0x01

/-! ## Modular exponentiation

`big.Int.Exp(x, y, m)` computes `x^y mod m`. The embedding uses a
square-and-multiply loop with an explicit fuel argument (the exponent
itself bounds the number of halvings), so the definition is structurally
recursive and evaluable; `powMod_eq` relates it to `x ^ y % m`. -/

/-- Square-and-multiply helper: computes `a ^ b % n` provided `b ≤ fuel`. -/
def powModAux : Nat → Nat → Nat → Nat → Nat
  | 0, _, _, n => 1 % n
  | fuel + 1, a, b, n =>
    if b = 0 then 1 % n
    else
      let r := powModAux fuel (a * a % n) (b / 2) n
      if b % 2 = 1 then r * a % n else r

/-- Models `big.Int.Exp`: modular exponentiation `a ^ b mod n`. -/
def powMod (a b n : Nat) : Nat := powModAux b a b n

/-! ## The evaluation domain (`initDomain` in `src/crypto/kzg/util.go`) -/

/-- The exponent computed by `initDomain`:
`new(big.Int).Div(new(big.Int).Sub(BLSModulus, big.NewInt(-1)), width)`,
i.e. the Euclidean quotient `(BLSModulus − (−1)) / width = (q + 1) / N`.
(The source comment says `(MODULUS - 1) // WIDTH`; the code subtracts `−1`.) -/
def initDomainExp : Nat := (blsModulus + 1) / fieldElementsPerBlob

/-- `rootOfUnity` as computed by `initDomain`: `7 ^ initDomainExp mod q`. -/
def rootOfUnity : Nat := powMod 7 initDomainExp blsModulus

/-- `Domain[i] = rootOfUnity ^ i mod q`, the precomputed evaluation domain
of `initDomain` (a `[FieldElementsPerBlob]*big.Int` array; entries are
meaningful for `i < fieldElementsPerBlob`). -/
def Domain (i : Nat) : Nat := powMod rootOfUnity i blsModulus

/-- Modelled from the spec: `DomainFr`, the `bls.Fr`-typed copy of `Domain`
used by `ComputeKZGProof`; its initialisation is not under `src/`. Per §3
of the spec it holds the same evaluation domain `D[i] = ωⁱ mod q`, here as
canonical field-element values. -/
def DomainFr (i : Nat) : Nat := Domain i

/-! ## Modular inverse and division (`util.go`) -/

/-- Models `big.Int.ModInverse(g, n)`: the multiplicative inverse of `g`
modulo `n`, in `[0, n)`. A negative `g` is first reduced modulo `n` (as the
Go implementation does); when `g` and `n` are not coprime there is no
inverse and the Go method leaves the receiver unchanged — every caller in
`util.go` passes a freshly allocated (zero) receiver, so that case is `0`
here. -/
def goModInverse (g n : Int) : Int :=
  let g' : Int := if g < 0 then g % n else g
  if Int.gcd g' n = 1 then Nat.gcdA g'.toNat n.toNat % n else 0

/-- Models `blsModInv` in `src/crypto/kzg/util.go`: `out` is written only
when `x` is non-zero (`len(x.Bits()) != 0`), so a zero input leaves the
caller's freshly allocated `out` at zero. -/
def blsModInv (x : Int) : Int :=
  if x = 0 then 0 else goModInverse x (blsModulus : Int)

/-- Models `blsDiv` in `src/crypto/kzg/util.go`:
`out.Mod(new(big.Int).Mul(a, &bInv), BLSModulus)` where `bInv` is the
(possibly silently zero) `blsModInv` of `b`. -/
def blsDiv (a b : Int) : Int := a * blsModInv b % (blsModulus : Int)

/-! ## Barycentric evaluation (`EvaluatePolyInEvaluationForm`, `util.go`)

`frToBig` round-trips a canonical field element through its 32-byte form
and back into a `big.Int`, which is the identity on the integer value, so
it is left implicit here. The length-mismatch panic is an `Option.none`. -/

/-- The barycentric computation of `EvaluatePolyInEvaluationForm`
(`util.go`) without the length guard (shared with `ComputeProof`, which
re-checks the length itself before calling it):
`f(x) = (1 - x^WIDTH) / WIDTH * Σ_i (poly[i] * DOMAIN[i]) / (x - DOMAIN[i])`
computed over `big.Int`, with every division a `blsDiv`. The final value is
reduced into `[0, q)` and stored as a field element. There is no special
case for `x` lying on the domain. -/
def evaluatePolyCore (poly : List Nat) (x : Nat) : Nat :=
  let inverseWidth : Int := blsModInv (fieldElementsPerBlob : Int)
  let xB : Int := (x : Int)
  let y : Int := (List.range fieldElementsPerBlob).foldl
    (fun acc i =>
      acc + blsDiv ((poly.getD i 0 : Int) * (Domain i : Int)) (xB - (Domain i : Int)))
    0
  let powB : Int := xB ^ fieldElementsPerBlob % (blsModulus : Int) - 1
  (y * (powB * inverseWidth) % (blsModulus : Int)).toNat

/-- Models `EvaluatePolyInEvaluationForm` from `src/crypto/kzg/util.go`:
the length-mismatch panic, then the barycentric computation. -/
def EvaluatePolyInEvaluationForm (poly : List Nat) (x : Nat) : Option Nat :=
  if poly.length ≠ fieldElementsPerBlob then none
  else some (evaluatePolyCore poly x)

/-! ## Linear combination (`MatrixLinComb`, `util.go`) -/

/-- One step of the inner loop of `MatrixLinComb`: for each `j` below
`len(r)`, `r[j] ← r[j] + vectors[i][j] * scalars[i] (mod q)`. The inner
read `vectors[i][j]` panics when the row is shorter than `r`. -/
def linCombRow (r v : List Nat) (s : Nat) : Option (List Nat) :=
  if r.length ≤ v.length then
    some (List.zipWith (fun rj vj => (rj + vj * s % blsModulus) % blsModulus) r v)
  else none

/-- The outer loop of `MatrixLinComb`: iterates the rows in order, reading
`scalars[i]` by index (a missing scalar is an index-out-of-range panic). -/
def matrixLinCombLoop : List (List Nat) → List Nat → List Nat → Option (List Nat)
  | [], _, r => some r
  | _ :: _, [], _ => none
  | v :: vs, s :: ss, r => (linCombRow r v s).bind (matrixLinCombLoop vs ss)

/-- Models `MatrixLinComb` from `src/crypto/kzg/util.go`. The result length
is `len(vectors[0])`: on an empty `vectors` the very first statement
`make([]bls.Fr, len(vectors[0]))` indexes out of range and panics (`none`). -/
def MatrixLinComb (vectors : List (List Nat)) (scalars : List Nat) : Option (List Nat) :=
  match vectors with
  | [] => none
  | v0 :: _ => matrixLinCombLoop vectors scalars (List.replicate v0.length 0)

/-! ## Byte-string helpers -/

/-- Models `big.Int.SetBytes`: interprets a byte string as an unsigned
big-endian integer. -/
def beBytesToNat (bs : List Nat) : Nat := bs.foldl (fun acc b => acc * 256 + b) 0

/-- The little-endian integer value of a byte string (the spec-side reading
used to compare against the code). -/
def leBytesToNat (bs : List Nat) : Nat := bs.foldr (fun b acc => b + 256 * acc) 0

/-- The 32-byte little-endian encoding of a canonical field element:
models `bls.FrTo32`. -/
def frTo32 (x : Nat) : List Nat := (List.range 32).map fun i => x / 256 ^ i % 256

/-- The 8-byte little-endian encoding of a 64-bit integer, as written by
the ztyp codec's `WriteUint64` (SSZ layout). -/
def u64LE (x : Nat) : List Nat := (List.range 8).map fun i => x / 256 ^ i % 256

/-- The 4-byte little-endian encoding of a 32-bit integer (SSZ offsets). -/
def u32LE (x : Nat) : List Nat := (List.range 4).map fun i => x / 256 ^ i % 256

/-- The byte-swap loop shared by `BytesToBLSField` and `BigToFr`
(`for i := 0; i < 16; i++ { b[31-i], b[i] = b[i], b[31-i] }`): on the
32-byte arrays it is applied to, it reverses the bytes. -/
def byteswap32 (bs : List Nat) : List Nat := bs.reverse

/-- Models `BytesToBLSField` from `src/crypto/kzg/kzg_new.go` (the integer
value of the returned `bls.Fr`): the 32-byte input is byte-swapped, read
big-endian by `SetBytes`, and reduced modulo the field modulus; `BigToFr`
then carries that canonical value into a field element unchanged. -/
def BytesToBLSField (h : List Nat) : Nat := beBytesToNat (byteswap32 h) % blsModulus

/-! ## SHA-256

`crypto/sha256` from the Go standard library, used by
`KZGToVersionedHash` (`kzg_bytes.go`), `HashToBLSField` (`kzg_new.go`) and
`sszHash` (`agg_kzg`). Implemented here from FIPS 180-4 over byte lists. -/

/-- Truncation to a 32-bit word. -/
def w32 (x : Nat) : Nat := x % 4294967296

/-- Right rotation of a 32-bit word by `n` bits. -/
def rotr32 (n x : Nat) : Nat :=
  w32 (Nat.lor (Nat.shiftRight x n) (Nat.shiftLeft x (32 - n)))

/-- Bitwise complement of a 32-bit word. -/
def not32 (x : Nat) : Nat := Nat.xor 4294967295 x

/-- The 64 SHA-256 round constants. -/
def sha256K : List Nat :=
  [1116352408, 1899447441, 3049323471, 3921009573, 961987163, 1508970993,
   2453635748, 2870763221, 3624381080, 310598401, 607225278, 1426881987,
   1925078388, 2162078206, 2614888103, 3248222580, 3835390401, 4022224774,
   264347078, 604807628, 770255983, 1249150122, 1555081692, 1996064986,
   2554220882, 2821834349, 2952996808, 3210313671, 3336571891, 3584528711,
   113926993, 338241895, 666307205, 773529912, 1294757372, 1396182291,
   1695183700, 1986661051, 2177026350, 2456956037, 2730485921, 2820302411,
   3259730800, 3345764771, 3516065817, 3600352804, 4094571909, 275423344,
   430227734, 506948616, 659060556, 883997877, 958139571, 1322822218,
   1537002063, 1747873779, 1955562222, 2024104815, 2227730452, 2361852424,
   2428436474, 2756734187, 3204031479, 3329325298]

/-- The SHA-256 initial hash state. -/
def sha256H0 : List Nat :=
  [1779033703, 3144134277, 1013904242, 2773480762,
   1359893119, 2600822924, 528734635, 1541459225]

/-- Splits a list into chunks of `size` elements (fuel-driven so the
recursion is structural; `fuel = xs.length` always suffices). -/
def chunksAux (size : Nat) : Nat → List α → List (List α)
  | 0, _ => []
  | fuel + 1, xs => if xs.isEmpty then [] else xs.take size :: chunksAux size fuel (xs.drop size)

/-- Splits a list into chunks of `size` elements. -/
def chunksOf (size : Nat) (xs : List α) : List (List α) := chunksAux size xs.length xs

/-- FIPS 180-4 padding: a `0x80` byte, zeros to 56 mod 64, and the bit
length as a 64-bit big-endian integer. -/
def sha256Pad (msg : List Nat) : List Nat :=
  msg ++ [0x80] ++ List.replicate ((119 - msg.length % 64) % 64) 0
      ++ ((List.range 8).map fun i => 8 * msg.length / 256 ^ (7 - i) % 256)

/-- The SHA-256 message schedule: 16 big-endian words from the block,
extended to 64. -/
def sha256Schedule (block : List Nat) : List Nat :=
  let w16 := (List.range 16).map fun i => beBytesToNat ((block.drop (4 * i)).take 4)
  (List.range 48).foldl
    (fun w t =>
      let x := w.getD (t + 1) 0
      let y := w.getD (t + 14) 0
      let s0 := Nat.xor (Nat.xor (rotr32 7 x) (rotr32 18 x)) (Nat.shiftRight x 3)
      let s1 := Nat.xor (Nat.xor (rotr32 17 y) (rotr32 19 y)) (Nat.shiftRight y 10)
      w ++ [w32 (w.getD t 0 + s0 + w.getD (t + 9) 0 + s1)])
    w16

/-- One SHA-256 compression round applied to the 8-word working state. -/
def sha256Round (w : List Nat) (st : List Nat) (t : Nat) : List Nat :=
  let a := st.getD 0 0
  let b := st.getD 1 0
  let c := st.getD 2 0
  let d := st.getD 3 0
  let e := st.getD 4 0
  let f := st.getD 5 0
  let g := st.getD 6 0
  let hh := st.getD 7 0
  let s1 := Nat.xor (Nat.xor (rotr32 6 e) (rotr32 11 e)) (rotr32 25 e)
  let ch := Nat.xor (Nat.land e f) (Nat.land (not32 e) g)
  let t1 := w32 (hh + s1 + ch + sha256K.getD t 0 + w.getD t 0)
  let s0 := Nat.xor (Nat.xor (rotr32 2 a) (rotr32 13 a)) (rotr32 22 a)
  let mj := Nat.xor (Nat.xor (Nat.land a b) (Nat.land a c)) (Nat.land b c)
  let t2 := w32 (s0 + mj)
  [w32 (t1 + t2), a, b, c, w32 (d + t1), e, f, g]

/-- The SHA-256 compression function on one 64-byte block. -/
def sha256Compress (st : List Nat) (block : List Nat) : List Nat :=
  let w := sha256Schedule block
  let out := (List.range 64).foldl (sha256Round w) st
  List.zipWith (fun x y => w32 (x + y)) st out

/-- SHA-256 of a byte string, as 32 bytes. -/
def sha256 (msg : List Nat) : List Nat :=
  let padded := sha256Pad msg
  let final := (chunksOf 64 padded).foldl sha256Compress sha256H0
  (final.map fun word => (List.range 4).map fun i => word / 256 ^ (3 - i) % 256).flatten

/-! ## Keccak-256

Modelled from the spec: `crypto.Keccak256Hash` from the go-ethereum
`crypto` package (not under `src/`), the legacy (pre-NIST-padding)
Keccak-256 used by the `kzg_new.go` variant of `KZGToVersionedHash`
(§9 Open question 1 of the spec). Implemented from the Keccak reference:
rate 1088 bits (136 bytes), multi-rate padding `0x01 … 0x80`, 24-round
Keccak-f[1600] on 25 little-endian 64-bit lanes. -/

/-- Truncation to a 64-bit word. -/
def w64 (x : Nat) : Nat := x % 18446744073709551616

/-- Left rotation of a 64-bit word by `n` bits, `n < 64`. -/
def rotl64 (n x : Nat) : Nat :=
  w64 (Nat.lor (Nat.shiftLeft x n) (Nat.shiftRight x (64 - n)))

/-- Bitwise complement of a 64-bit word. -/
def not64 (x : Nat) : Nat := Nat.xor 18446744073709551615 x

/-- The 24 Keccak-f[1600] round constants. -/
def keccakRC : List Nat :=
  [1, 32898, 9223372036854808714, 9223372039002292224,
   32907, 2147483649, 9223372039002292353, 9223372036854808585,
   138, 136, 2147516425, 2147483658,
   2147516555, 9223372036854775947, 9223372036854808713, 9223372036854808579,
   9223372036854808578, 9223372036854775936, 32778, 9223372039002259466,
   9223372039002292353, 9223372036854808704, 2147483649, 9223372039002292232]

/-- The ρ rotation offsets, indexed by lane `x + 5y`, generated by the
reference rule: walking the π orbit from lane (1,0), step `t` rotates by
the triangular number `(t+1)(t+2)/2 mod 64`. -/
def keccakRho : List Nat :=
  ((List.range 24).foldl
    (fun st t =>
      let offs := st.1
      let x := st.2.1
      let y := st.2.2
      (offs.set (x + 5 * y) ((t + 1) * (t + 2) / 2 % 64), y, (2 * x + 3 * y) % 5))
    (List.replicate 25 0, 1, 0)).1

/-- The θ step: xor every lane with the parity of neighbouring columns. -/
def keccakTheta (A : List Nat) : List Nat :=
  let C := (List.range 5).map fun x =>
    Nat.xor (Nat.xor (Nat.xor (Nat.xor (A.getD x 0) (A.getD (x + 5) 0)) (A.getD (x + 10) 0))
      (A.getD (x + 15) 0)) (A.getD (x + 20) 0)
  let D := (List.range 5).map fun x =>
    Nat.xor (C.getD ((x + 4) % 5) 0) (rotl64 1 (C.getD ((x + 1) % 5) 0))
  (List.range 25).map fun i => Nat.xor (A.getD i 0) (D.getD (i % 5) 0)

/-- The combined ρ and π steps: rotate each lane and move it to its
permuted position `(y, 2x + 3y)`. -/
def keccakRhoPi (A : List Nat) : List Nat :=
  (List.range 5).foldl
    (fun B x => (List.range 5).foldl
      (fun B y =>
        B.set (y + 5 * ((2 * x + 3 * y) % 5)) (rotl64 (keccakRho.getD (x + 5 * y) 0) (A.getD (x + 5 * y) 0)))
      B)
    (List.replicate 25 0)

/-- The χ step: the only non-linear step, row-wise. -/
def keccakChi (B : List Nat) : List Nat :=
  (List.range 25).map fun i =>
    Nat.xor (B.getD i 0)
      (Nat.land (not64 (B.getD ((i % 5 + 1) % 5 + 5 * (i / 5)) 0))
        (B.getD ((i % 5 + 2) % 5 + 5 * (i / 5)) 0))

/-- One Keccak-f round: θ, ρ, π, χ, then ι (xor the round constant into
lane 0). -/
def keccakRound (A : List Nat) (rc : Nat) : List Nat :=
  let C := keccakChi (keccakRhoPi (keccakTheta A))
  C.set 0 (Nat.xor (C.getD 0 0) rc)

/-- The Keccak-f[1600] permutation. -/
def keccakF (A : List Nat) : List Nat := keccakRC.foldl keccakRound A

/-- Legacy Keccak multi-rate padding to a multiple of 136 bytes:
`0x01`, zeros, `0x80` (collapsed to a single `0x81` when one byte is
missing). -/
def keccakPad (msg : List Nat) : List Nat :=
  let k := 136 - msg.length % 136
  if k = 1 then msg ++ [0x81]
  else msg ++ [0x01] ++ List.replicate (k - 2) 0 ++ [0x80]

/-- Absorb one 136-byte block: xor its 17 little-endian lanes into the
state and permute. -/
def keccakAbsorb (A : List Nat) (block : List Nat) : List Nat :=
  let lanes := (List.range 17).map fun i => leBytesToNat ((block.drop (8 * i)).take 8)
  keccakF ((List.range 25).map fun i => Nat.xor (A.getD i 0) (lanes.getD i 0))

/-- Keccak-256 of a byte string, as 32 bytes (the first 4 lanes of the
final state, little-endian). -/
def keccak256 (msg : List Nat) : List Nat :=
  let A := (chunksOf 136 (keccakPad msg)).foldl keccakAbsorb (List.replicate 25 0)
  ((List.range 4).map fun i => (List.range 8).map fun j => A.getD i 0 / 256 ^ j % 256).flatten

/-! ## Versioned hashes

The repository contains two variants of `kzg_to_versioned_hash`
(`src/crypto/kzg/kzg_bytes.go` uses SHA-256, `src/crypto/kzg/kzg_new.go`
uses Keccak-256); they live in separate namespaces here. -/

namespace KzgBytes

/-- Models `KZGToVersionedHash` from `src/crypto/kzg/kzg_bytes.go`:
`h := sha256.Sum256(kzg[:]); h[0] = params.BlobCommitmentVersionKZG`. -/
def KZGToVersionedHash (kzg : List Nat) : List Nat :=
  (sha256 kzg).set 0 blobCommitmentVersionKZG

end KzgBytes

namespace KzgNew

/-- Models `KZGToVersionedHash` from `src/crypto/kzg/kzg_new.go`:
`h := crypto.Keccak256Hash(kzg[:]); h[0] = params.BlobCommitmentVersionKZG`. -/
def KZGToVersionedHash (kzg : List Nat) : List Nat :=
  (keccak256 kzg).set 0 blobCommitmentVersionKZG

end KzgNew

/-! ## The Fiat–Shamir transcript (`HashToBLSField`, `kzg_new.go`) -/

/-- The domain-separation tag `FIAT_SHAMIR_PROTOCOL_DOMAIN`
(`"FSBLOBVERIFY_V1_"`) as its byte string. -/
def fiatShamirProtocolDomain : List Nat := "FSBLOBVERIFY_V1_".data.map Char.toNat

/-- The exact byte stream fed to SHA-256 by `HashToBLSField` in
`src/crypto/kzg/kzg_new.go`, modelled as the sequence of `w.Write` /
`w.WriteUint64` calls appending to the hasher's input: the domain tag,
`N` and `k` as little-endian u64, every field element of every polynomial
as 32 little-endian bytes, then every commitment's 48 bytes. -/
def HashToBLSFieldInput (polys : List (List Nat)) (comms : List (List Nat)) : List Nat :=
  let s1 := [] ++ fiatShamirProtocolDomain
  let s2 := s1 ++ u64LE fieldElementsPerBlob
  let s3 := s2 ++ u64LE polys.length
  let s4 := polys.foldl (fun acc poly => poly.foldl (fun acc2 fe => acc2 ++ frTo32 fe) acc) s3
  comms.foldl (fun acc c => acc ++ c) s4

/-- Models `HashToBLSField` from `src/crypto/kzg/kzg_new.go`: SHA-256 of
the transcript, then `BytesToBLSField`. (The writer errors the Go code
propagates cannot occur when writing into a hash.) -/
def HashToBLSField (polys : List (List Nat)) (comms : List (List Nat)) : Nat :=
  BytesToBLSField (sha256 (HashToBLSFieldInput polys comms))

/-- The spec-side transcript of §4.6.1, stated as a plain concatenation:
the 16 ASCII bytes of the tag, `N` and `k` as little-endian u64, the
`k · N` field elements as 32-byte little-endian encodings in order, then
the `k` commitments' 48 bytes in order. To be compared with
`HashToBLSFieldInput`. -/
def specTranscript (polys : List (List Nat)) (comms : List (List Nat)) : List Nat :=
  [70, 83, 66, 76, 79, 66, 86, 69, 82, 73, 70, 89, 95, 86, 49, 95]
    ++ u64LE fieldElementsPerBlob ++ u64LE polys.length
    ++ (polys.map fun p => (p.map frTo32).flatten).flatten
    ++ comms.flatten

/-! ## Scalar-field primitives of the `bls` library

The go-kzg `bls` package is an external dependency (spec §1 treats it as
an opaque primitive layer); its field operations on canonical values are
plain modular arithmetic. -/

/-- Models `bls.MulModFr`. -/
def frMul (a b : Nat) : Nat := a * b % blsModulus

/-- Models `bls.AddModFr`. -/
def frAdd (a b : Nat) : Nat := (a + b) % blsModulus

/-- Models `bls.SubModFr` (subtraction in the field, canonical result). -/
def frSub (a b : Nat) : Nat := (((a : Int) - b) % (blsModulus : Int)).toNat

/-- Modelled from the spec: the field-inversion primitive underlying
`bls.DivModFr` (go-kzg, not under `src/`); on the prime field this is the
Fermat inverse, with `0 ↦ 0`. -/
def frInv (a : Nat) : Nat := powMod a (blsModulus - 2) blsModulus

/-- Models `bls.DivModFr`: field division. -/
def frDiv (a b : Nat) : Nat := frMul a (frInv b)

/-- Models `bls.FrFrom32`: decode 32 little-endian bytes, accepting only
canonical (`< q`) values. -/
def frFrom32 (chunk : List Nat) : Option Nat :=
  let v := leBytesToNat chunk
  if v < blsModulus then some v else none

/-- Models `ComputePowers` from `src/crypto/kzg/kzg_new.go`: the list
`[1, r, r², …, r^(n-1)]`, built by the source's running-product loop. -/
def ComputePowers (r : Nat) (n : Nat) : List Nat :=
  ((List.range n).foldl (fun st _ => (st.1 ++ [st.2], frMul st.2 r)) (([] : List Nat), 1)).1

/-- The `computePowers` copy in `src/crypto/agg_kzg` is the identical loop. -/
def computePowers (r : Nat) (n : Nat) : List Nat := ComputePowers r n

/-! ## The opaque G1 layer

Spec §1: the BLS12-381 curve library is an external collaborator,
"opaque primitives with well-defined contracts". The embedding is
parametrised by the point type and by the operations the core calls,
together with the (bit-reversed) Lagrange trusted setup. -/

structure G1Ops where
  G1 : Type
  fromCompressedG1 : List Nat → Except String G1
  toCompressedG1 : G1 → List Nat
  linCombG1 : List G1 → List Nat → G1
  kzgSetupLagrange : List G1

/-- A trivial instantiation of the opaque G1 layer, used to apply the
parametrised theorems at concrete inputs. -/
def unitG1Ops : G1Ops where
  G1 := Unit
  fromCompressedG1 := fun _ => .ok ()
  toCompressedG1 := fun _ => List.replicate 48 0
  linCombG1 := fun _ _ => ()
  kzgSetupLagrange := []

/-! ## Proof generation -/

/-- Modelled from the spec: `bls.EvaluatePolyInEvaluationForm` (the go-kzg
library routine called by `EvaluatePolynomialInEvaluationForm` in
`kzg_new.go`; not under `src/`), per §4.3.2: the barycentric formula, with
the domain-node edge case returning the stored evaluation. -/
def blsEvaluatePolyInEvaluationForm (poly : List Nat) (x : Nat) : Nat :=
  match (List.range fieldElementsPerBlob).find? (fun i => DomainFr i == x) with
  | some i => poly.getD i 0
  | none =>
    let s := ((List.range fieldElementsPerBlob).map fun i =>
      frDiv (frMul (poly.getD i 0) (DomainFr i)) (frSub x (DomainFr i))).foldl frAdd 0
    frMul (frMul (frSub (powMod x fieldElementsPerBlob blsModulus) 1) (frInv fieldElementsPerBlob)) s

/-- Models `EvaluatePolynomialInEvaluationForm` from
`src/crypto/kzg/kzg_new.go` (a direct call into the library routine). -/
def EvaluatePolynomialInEvaluationForm (poly : List Nat) (x : Nat) : Nat :=
  blsEvaluatePolyInEvaluationForm poly x

/-- Models `ComputeKZGProof` from `src/crypto/kzg/kzg_new.go`: evaluate,
shift by `y`, fail on a bad length, fail with `invalid z challenge` when
`z` hits `DomainFr`, otherwise divide point-wise and commit the quotient.
The Go loop reports the error at the first matching index; with no other
effects in the loop that is exactly an any-check. -/
def ComputeKZGProof (ops : G1Ops) (polynomial : List Nat) (z : Nat) : Except String (List Nat) :=
  let y := EvaluatePolynomialInEvaluationForm polynomial z
  let polynomialShifted := polynomial.map fun a => frSub a y
  if polynomial.length ≠ fieldElementsPerBlob then .error "polynomial has invalid length"
  else if (List.range polynomial.length).any (fun i => DomainFr i == z) then
    .error "invalid z challenge"
  else
    let denominatorPoly := (List.range polynomial.length).map fun i => frSub (DomainFr i) z
    let quotientPolynomial := List.zipWith frDiv polynomialShifted denominatorPoly
    .ok (ops.toCompressedG1 (ops.linCombG1 ops.kzgSetupLagrange quotientPolynomial))

/-- Models `ComputeProof` from `src/crypto/kzg/kzg.go`: the `big.Int`
flavoured proof generation (length guard, barycentric evaluation, shift,
domain check with the source's misspelled error string, `blsDiv`
point-wise division, MSM against the Lagrange setup). -/
def ComputeProof (ops : G1Ops) (eval : List Nat) (z : Nat) : Except String ops.G1 :=
  if eval.length ≠ fieldElementsPerBlob then .error "invalid eval polynomial for proof"
  else
    let zB : Int := (z : Int)
    let yB : Int := (evaluatePolyCore eval z : Nat)
    let polyShifted := (List.range fieldElementsPerBlob).map fun i =>
      ((eval.getD i 0 : Int) - yB) % (blsModulus : Int)
    if (List.range fieldElementsPerBlob).any (fun i => (Domain i : Int) == zB) then
      .error "inavlid z challenge"
    else
      let denomPoly := (List.range fieldElementsPerBlob).map fun i =>
        ((Domain i : Int) - zB) % (blsModulus : Int)
      let quotientPoly := List.zipWith (fun a b => (blsDiv a b).toNat) polyShifted denomPoly
      .ok (ops.linCombG1 ops.kzgSetupLagrange quotientPoly)

/-! ## Aggregation, `src/crypto/agg_kzg/ssz_structures.go`

An `agg_kzg.Blob` is `[FieldElementsPerBlob]BLSFieldElement`, i.e. 4096
raw 32-byte chunks; it is modelled as a list of 32-byte chunks. The SSZ
container serializations feeding `sszHash` are spelled out: both list
fields of `BlobsAndCommitments` are variable-size, so the container is two
4-byte little-endian offsets followed by the two payloads, while
`PolynomialAndCommitment` has only fixed-size fields and is the plain
concatenation. -/

namespace AggKzg

/-- Models `agg_kzg.hashToFr` (textually the byte-swap-and-reduce of
`BytesToBLSField`). -/
def hashToFr (sum : List Nat) : Nat := beBytesToNat (byteswap32 sum) % blsModulus

/-- Models `Blob.Parse`: each 32-byte chunk through `bls.FrFrom32`,
rejecting non-canonical encodings. -/
def blobParse (blob : List (List Nat)) : Except String (List Nat) :=
  blob.mapM fun chunk =>
    match frFrom32 chunk with
    | some v => Except.ok v
    | none => Except.error "internal error commitments"

/-- Models `Blobs.Parse`: parse every blob (the per-blob error context is
dropped). -/
def blobsParse (blobs : List (List (List Nat))) : Except String (List (List Nat)) :=
  blobs.mapM blobParse

/-- The SSZ serialization of `BlobsAndCommitments` (two variable-size list
fields: two u32 offsets, then blob bytes, then commitment bytes). -/
def serializeBlobsAndCommitments (blobs : List (List (List Nat))) (comms : List (List Nat)) : List Nat :=
  let blobBytes := (blobs.map List.flatten).flatten
  u32LE 8 ++ u32LE (8 + blobBytes.length) ++ blobBytes ++ comms.flatten

/-- The SSZ serialization of `PolynomialAndCommitment` (fixed-size blob
and commitment: plain concatenation). -/
def serializePolynomialAndCommitment (b : List (List Nat)) (c : List Nat) : List Nat :=
  b.flatten ++ c

/-- Models `computeAggregateKzgCommitment`: transcript hash, challenge,
powers, decompress the commitments (a failed decompression is ignored by
the source and the nil point then panics in `CopyG1`: `none`), aggregate
commitment by MSM, parse the blobs, and aggregate the polynomials with
`MatrixLinComb` (which panics on zero blobs: `none`). -/
def computeAggregateKzgCommitment (ops : G1Ops) (blobs : List (List (List Nat)))
    (comms : List (List Nat)) : Option (Except String (List Nat × ops.G1)) :=
  let sum := sha256 (serializeBlobsAndCommitments blobs comms)
  let r := hashToFr sum
  let powers := computePowers r blobs.length
  match comms.mapM (fun c => (ops.fromCompressedG1 c).toOption) with
  | none => none
  | some commitmentsG1 =>
    let aggregateCommitmentG1 := ops.linCombG1 commitmentsG1 powers
    match blobsParse blobs with
    | .error e => some (.error e)
    | .ok polys =>
      match MatrixLinComb polys powers with
      | none => none
      | some aggregatePoly => some (.ok (aggregatePoly, aggregateCommitmentG1))

/-- Models `ComputeAggregateKZGProof` from
`src/crypto/agg_kzg/ssz_structures.go`: zero blobs return the zero-valued
48-byte `KZGProof` with a nil error before any cryptography runs;
otherwise aggregate, derive the second transcript challenge `z`, evaluate
(the source computes `y` and never uses it), and produce the proof with
`kzg.ComputeProof`. -/
def ComputeAggregateKZGProof (ops : G1Ops) (blobs : List (List (List Nat)))
    (commitments : List (List Nat)) : Option (Except String (List Nat)) :=
  if blobs.length = 0 then some (.ok (List.replicate 48 0))
  else
    match computeAggregateKzgCommitment ops blobs commitments with
    | none => none
    | some (.error e) => some (.error e)
    | some (.ok (aggregatePoly, aggregateCommitmentG1)) =>
      let aggregateCommitment := ops.toCompressedG1 aggregateCommitmentG1
      let aggregateBlob := aggregatePoly.map frTo32
      let sum := sha256 (serializePolynomialAndCommitment aggregateBlob aggregateCommitment)
      let z := hashToFr sum
      match ComputeProof ops aggregatePoly z with
      | .error e => some (.error e)
      | .ok aggProofG1 => some (.ok (ops.toCompressedG1 aggProofG1))

/-- Modelled from the spec (§4.4): `kzg.BlobToKzg`, the evaluation-form
commitment MSM against the Lagrange setup; its definition is not under
`src/` (only callers are). -/
def BlobToKzg (ops : G1Ops) (eval : List Nat) : ops.G1 :=
  ops.linCombG1 ops.kzgSetupLagrange eval

/-- Models `ComputeCommitment`: canonical decoding of every chunk, then
the commitment MSM, compressed. -/
def ComputeCommitment (ops : G1Ops) (blob : List (List Nat)) : Except String (List Nat) :=
  match blob.mapM frFrom32 with
  | none => .error "blob is not canonical, error converting byte representation to a field element"
  | some frs => .ok (ops.toCompressedG1 (BlobToKzg ops frs))

/-- Models `ComputeCommitments`: one commitment per blob, in order. -/
def ComputeCommitments (ops : G1Ops) (blobs : List (List (List Nat))) :
    Except String (List (List Nat)) :=
  blobs.mapM (ComputeCommitment ops)

/-- Models `ComputeAggregateKZGProofAndCommitments`: the commitments, then
the aggregated proof over them. -/
def ComputeAggregateKZGProofAndCommitments (ops : G1Ops) (blobs : List (List (List Nat))) :
    Option (Except String (List Nat × List (List Nat))) :=
  match ComputeCommitments ops blobs with
  | .error e => some (.error e)
  | .ok commitments =>
    match ComputeAggregateKZGProof ops blobs commitments with
    | none => none
    | some (.error e) => some (.error e)
    | some (.ok proof) => some (.ok (proof, commitments))

end AggKzg

/-! ## The `kzg_new.go` aggregation path -/

namespace KzgNew

/-- Modelled from the spec (§4.3.3): `bls.PolyLinComb` (go-kzg, not under
`src/`), the same coordinate-wise linear combination, returning an error
where the in-repo `MatrixLinComb` would panic (empty or ragged input). -/
def blsPolyLinComb (vectors : List (List Nat)) (scalars : List Nat) : Except String (List Nat) :=
  match MatrixLinComb vectors scalars with
  | some r => .ok r
  | none => .error "polynomial lengths mismatch"

/-- Models `ComputeAggregatedPolyAndCommitment` from
`src/crypto/kzg/kzg_new.go`: Fiat–Shamir challenge `r`, its powers (zero
blobs are rejected here), evaluation challenge `r^k`, aggregated
polynomial and aggregated commitment. -/
def ComputeAggregatedPolyAndCommitment (ops : G1Ops) (blobs : List (List Nat))
    (commitments : List (List Nat)) : Except String (List Nat × List Nat × Nat) :=
  let r := HashToBLSField blobs commitments
  let powers := ComputePowers r blobs.length
  if powers.length = 0 then .error "powers can't be 0 length"
  else
    let evaluationChallenge := frMul r (powers.getD (powers.length - 1) 0)
    match blsPolyLinComb blobs powers with
    | .error e => .error e
    | .ok aggregatedPoly =>
      match commitments.mapM ops.fromCompressedG1 with
      | .error e => .error e
      | .ok commitmentsG1 =>
        .ok (aggregatedPoly, ops.toCompressedG1 (ops.linCombG1 commitmentsG1 powers),
          evaluationChallenge)

/-- Models `BlobToKZGCommitment` from `src/crypto/kzg/kzg_new.go`. -/
def BlobToKZGCommitment (ops : G1Ops) (eval : List Nat) : List Nat :=
  ops.toCompressedG1 (ops.linCombG1 ops.kzgSetupLagrange eval)

/-- Models `ComputeAggregateKZGProof` from `src/crypto/kzg/kzg_new.go`:
commit to every blob, aggregate, and open at the evaluation challenge. -/
def ComputeAggregateKZGProof (ops : G1Ops) (blobs : List (List Nat)) :
    Except String (List Nat) :=
  let commitments := blobs.map (BlobToKZGCommitment ops)
  match ComputeAggregatedPolyAndCommitment ops blobs commitments with
  | .error e => .error e
  | .ok (aggregatedPoly, _, evaluationChallenge) =>
    ComputeKZGProof ops aggregatedPoly evaluationChallenge

end KzgNew

/-! ## Bit-reversal permutation (`src/crypto/kzg/kzg.go`) -/

/-- Models `isPowerOfTwo`: `value > 0 && (value & (value-1) == 0)`. -/
def isPowerOfTwo (value : Nat) : Bool :=
  decide (0 < value) && (value &&& (value - 1) == 0)

/-- Models `math/bits.Len64`: the minimal number of bits representing `n`. -/
def len64 (n : Nat) : Nat := if n = 0 then 0 else Nat.log2 n + 1

/-- The reversal of the low `k` bits of `n` (the spec-side definition of a
`k`-bit reversal, and the building block for `bits.Reverse64`). -/
def bitRev : Nat → Nat → Nat
  | 0, _ => 0
  | k + 1, n => 2 ^ k * (n % 2) + bitRev k (n / 2)

/-- Models `math/bits.Reverse64`: reverse all 64 bits of a `uint64`. -/
def reverse64 (n : Nat) : Nat := bitRev 64 (n % 2 ^ 64)

/-- Models `reverseBits` from `src/crypto/kzg/kzg.go`:
`bits.Reverse64(n) >> (65 - bits.Len64(order))` behind a power-of-two
assertion (its violation panics: `none`). -/
def reverseBits (n order : Nat) : Option Nat :=
  if isPowerOfTwo order then some (reverse64 n >>> (65 - len64 order)) else none

/-- Models `bitReversalPermutation` from `src/crypto/kzg/kzg.go`:
`out[i] = l[reverseBits(i, len(l))]` (an out-of-range read panics). -/
def bitReversalPermutation (l : List α) : Option (List α) :=
  (List.range l.length).mapM fun i => (reverseBits i l.length).bind fun j => l.get? j

/-! ## Supporting lemmas -/

/-- The fuel-driven square-and-multiply computes modular exponentiation
whenever the fuel covers the exponent. -/
theorem powModAux_eq (f : Nat) : ∀ a b n, b ≤ f → powModAux f a b n = a ^ b % n := by
  induction f with
  | zero =>
    intro a b n hb
    have hb0 : b = 0 := Nat.le_zero.mp hb
    subst hb0
    simp [powModAux]
  | succ f ih =>
    intro a b n hb
    by_cases hb0 : b = 0
    · subst hb0; simp [powModAux]
    · have hhalf : b / 2 ≤ f := by omega
      have hr := ih (a * a % n) (b / 2) n hhalf
      by_cases hpar : b % 2 = 1
      · have hsplit : 2 * (b / 2) + 1 = b := by omega
        calc powModAux (f + 1) a b n = powModAux f (a * a % n) (b / 2) n * a % n := by
              simp [powModAux, hb0, hpar]
          _ = (a * a % n) ^ (b / 2) % n * a % n := by rw [hr]
          _ = (a * a % n) ^ (b / 2) * a % n := Nat.mod_mul_mod
          _ = a ^ b % n := by
              have hme : (a * a % n) ^ (b / 2) * a ≡ (a * a) ^ (b / 2) * a [MOD n] :=
                Nat.ModEq.mul_right a ((Nat.mod_modEq (a * a) n).pow (b / 2))
              rw [hme]
              have : (a * a) ^ (b / 2) * a = a ^ b := by
                rw [← pow_two, ← pow_mul, ← pow_succ, hsplit]
              rw [this]
      · have hsplit : 2 * (b / 2) = b := by omega
        calc powModAux (f + 1) a b n = powModAux f (a * a % n) (b / 2) n := by
              simp [powModAux, hb0, hpar]
          _ = (a * a % n) ^ (b / 2) % n := hr
          _ = (a * a) ^ (b / 2) % n := by
              conv_rhs => rw [Nat.pow_mod]
          _ = a ^ b % n := by rw [← pow_two, ← pow_mul, hsplit]

/-- `powMod` is modular exponentiation. -/
theorem powMod_eq (a b n : Nat) : powMod a b n = a ^ b % n :=
  powModAux_eq b a b n le_rfl

/-- Reading a big-endian byte string backwards is the little-endian value. -/
theorem beBytesToNat_reverse (l : List Nat) : beBytesToNat l.reverse = leBytesToNat l := by
  induction l with
  | nil => rfl
  | cons b t ih =>
    have happ : beBytesToNat (t.reverse ++ [b]) = beBytesToNat t.reverse * 256 + b := by
      simp [beBytesToNat, List.foldl_append]
    simp only [List.reverse_cons, happ, ih, leBytesToNat, List.foldr_cons]
    change _ = b + 256 * List.foldr (fun b acc => b + 256 * acc) 0 t
    omega

/-! ## C10 — `blsDiv` silently absorbs a denominator divisible by `q` -/

/-- Claim C10: for every integer `a` and every `b ≡ 0 (mod q)`, `blsDiv`
sets its output to `0` and returns normally: `blsModInv` skips a zero
input, and `ModInverse` leaves the fresh zero receiver unchanged when
`gcd(b, q) ≠ 1` — in both cases the inverse stays `0`, so the product is
`0`. -/
theorem blsDiv_absorbs_zero_denominator (a b : Int) (hb : (blsModulus : Int) ∣ b) :
    blsDiv a b = 0 := by
  have hq1 : (blsModulus : Nat) ≠ 1 := by decide
  have hinv : blsModInv b = 0 := by
    by_cases hb0 : b = 0
    · simp [blsModInv, hb0]
    · obtain ⟨k, rfl⟩ := hb
      simp only [blsModInv, hb0, if_false, goModInverse]
      by_cases hneg : (blsModulus : Int) * k < 0
      · have hmod : (blsModulus : Int) * k % (blsModulus : Int) = 0 := Int.mul_emod_right _ _
        simp only [hneg, if_true, hmod]
        rw [if_neg]
        simp [Int.gcd_zero_left, hq1]
      · have hgcd : Int.gcd ((blsModulus : Int) * k) (blsModulus : Int) = blsModulus := by
          have h1 : Int.gcd ((blsModulus : Int) * k) ((blsModulus : Int) * 1) =
              (blsModulus : Int).natAbs * Int.gcd k 1 := Int.gcd_mul_left _ _ _
          simpa using h1
        simp only [hneg, if_false]
        rw [if_neg]
        rw [hgcd]
        exact fun h => hq1 h
  rw [blsDiv, hinv]
  simp

/-- Witness for C10 at `a = 7`, `b = q` itself. -/
theorem blsDiv_absorbs_zero_denominator_witness : blsDiv 7 (blsModulus : Int) = 0 :=
  blsDiv_absorbs_zero_denominator 7 (blsModulus : Int) dvd_rfl

/-! ## C5 — the evaluation domain is the powers of `7^((q-1)/N)` -/

/-- Claim C5: `Domain[i] = ω^i mod q` with `ω = 7^((q−1)/N) mod q`, and
the exponent `initDomain` computes is exactly the integer `(q−1)/N` —
the code forms `(q − (−1)) / N = (q+1)/N`, but since `N` divides `q−1`
the floor quotient coincides with `(q−1)/N`. -/
theorem domain_is_powers_of_root_of_unity : ∀ i, i < fieldElementsPerBlob →
    Domain i = (7 ^ ((blsModulus - 1) / fieldElementsPerBlob) % blsModulus) ^ i % blsModulus
    ∧ initDomainExp = (blsModulus - 1) / fieldElementsPerBlob := by
  have hexp : initDomainExp = (blsModulus - 1) / fieldElementsPerBlob := by decide
  intro i _
  refine ⟨?_, hexp⟩
  rw [Domain, powMod_eq, rootOfUnity, powMod_eq, hexp]

/-- Witness for C5 at `i = 0`. -/
theorem domain_is_powers_of_root_of_unity_witness :
    0 < fieldElementsPerBlob ∧
    (Domain 0 = (7 ^ ((blsModulus - 1) / fieldElementsPerBlob) % blsModulus) ^ 0 % blsModulus
      ∧ initDomainExp = (blsModulus - 1) / fieldElementsPerBlob) :=
  ⟨by decide, domain_is_powers_of_root_of_unity 0 (by decide)⟩

/-! ## C3 — the challenge bytes are reduced as a little-endian integer -/

/-- Counterexample to C3 as stated: on the 32-byte string with a single
`1` in byte 0, `BytesToBLSField` returns `1` (the little-endian value),
not `2^248 mod q` (the big-endian value). -/
theorem bytesToBLSField_big_endian_false :
    BytesToBLSField (1 :: List.replicate 31 0) ≠
      beBytesToNat (1 :: List.replicate 31 0) % blsModulus := by decide

/-- Claim C3 as amended: `BytesToBLSField h` is the **little-endian**
integer value of `h`, reduced modulo `q` (the byte-swap loop reverses the
array and `SetBytes` is big-endian). -/
theorem bytesToBLSField_little_endian (h : List Nat) :
    BytesToBLSField h = leBytesToNat h % blsModulus := by
  rw [BytesToBLSField, byteswap32, beBytesToNat_reverse]

/-! ## C8 — aggregate proof over zero blobs -/

/-- Claim C8: `ComputeAggregateKZGProof` on zero blobs succeeds
immediately with the all-zero 48-byte proof — and, through
`ComputeAggregateKZGProofAndCommitments`, with the empty commitment
list — without reaching any of the cryptography (the guard returns before
the transcript, MSMs, or proof generation run; proof generation performs
no pairing at all). -/
theorem computeAggregateKZGProof_empty_blobs (ops : G1Ops) :
    AggKzg.ComputeAggregateKZGProof ops [] [] = some (.ok (List.replicate 48 0))
    ∧ AggKzg.ComputeAggregateKZGProofAndCommitments ops [] =
        some (.ok (List.replicate 48 0, [])) := by
  exact ⟨rfl, rfl⟩

/-! ## C2 — the `kzg_new.go` versioned hash is not SHA-256-based -/

set_option maxRecDepth 10000

/-- Claim C2 evaluated at the failing input: on the all-zero 48-byte
commitment, the `kzg_new.go` variant of `KZGToVersionedHash`
(Keccak-256 based) differs at byte 1 from the `kzg_bytes.go` variant,
which is exactly the claim's `SHA-256(C)` with byte 0 overwritten — so
the `kzg_new.go` code violates `KZGToVersionedHash(C)[1:] = SHA-256(C)[1:]`. -/
theorem kzgNew_versionedHash_differs_from_sha256 :
    (KzgNew.KZGToVersionedHash (List.replicate 48 0)).getD 1 0 ≠
      (KzgBytes.KZGToVersionedHash (List.replicate 48 0)).getD 1 0 := by decide

/-! ## C1 — barycentric evaluation at a domain node -/

/-- Claim C1 evaluated at the failing input: `EvaluatePolyInEvaluationForm`
(`util.go`) has no domain-node detection; on the polynomial with
`poly[0] = 1` evaluated at `D[0] = 1` it returns `0`, not `poly[0]`.
Every term of the barycentric sum passes through `blsDiv`, whose zero
denominator at `i = 0` is silently absorbed, and the common factor
`x^N mod q − 1` vanishes at a domain node, so the whole product is `0`. -/
theorem evaluatePolyInEvaluationForm_at_node_returns_zero :
    EvaluatePolyInEvaluationForm (1 :: List.replicate 4095 0) (Domain 0) = some 0
    ∧ (1 :: List.replicate 4095 0).getD 0 0 = 1 := by
  refine ⟨?_, rfl⟩
  have hd : Domain 0 = 1 := rfl
  have hlen : (1 :: List.replicate 4095 (0 : Nat)).length = fieldElementsPerBlob := by
    rw [List.length_cons, List.length_replicate]; rfl
  rw [hd, EvaluatePolyInEvaluationForm, if_neg (by rw [hlen]; exact fun hne => hne rfl)]
  have h1 : ((1 : Nat) : Int) ^ fieldElementsPerBlob % (blsModulus : Int) - 1 = 0 := by
    rw [Nat.cast_one, one_pow]
    decide
  simp only [evaluatePolyCore, h1, Option.some.injEq, zero_mul, mul_zero, Int.zero_emod,
    Int.toNat_zero]

/-! ## C4 — the Fiat–Shamir transcript is the exact concatenation -/

/-- Appending through a fold is appending the flattened image. -/
theorem foldl_append_flatten {α β : Type} (f : α → List β) (l : List α) :
    ∀ s, l.foldl (fun acc x => acc ++ f x) s = s ++ (l.map f).flatten := by
  induction l with
  | nil => intro s; simp
  | cons x t ih => intro s; simp [ih, List.append_assoc]

/-- The polynomial loop of `HashToBLSField` appends every field element's
32-byte encoding in order. -/
theorem foldl_polys_flatten (polys : List (List Nat)) :
    ∀ s, polys.foldl (fun acc poly => poly.foldl (fun a fe => a ++ frTo32 fe) acc) s =
      s ++ (polys.map fun p => (p.map frTo32).flatten).flatten := by
  induction polys with
  | nil => intro s; simp
  | cons p t ih =>
    intro s
    rw [List.foldl_cons, foldl_append_flatten frTo32 p s, ih, List.map_cons,
      List.flatten_cons, List.append_assoc]

/-- The commitment loop of `HashToBLSField` appends the raw bytes in order. -/
theorem foldl_comms_flatten (comms : List (List Nat)) :
    ∀ s, comms.foldl (fun acc c => acc ++ c) s = s ++ comms.flatten := by
  induction comms with
  | nil => intro s; simp
  | cons c t ih => intro s; simp [ih, List.append_assoc]

/-- Claim C4: for `k` polynomials of length `N` and `k` commitments, the
byte string hashed by `HashToBLSField` is exactly the §4.6.1
concatenation: the 16 ASCII bytes of `FSBLOBVERIFY_V1_`, `N` and `k` as
little-endian u64, the polynomials' 32-byte little-endian field elements
in order, then the commitments' 48 bytes in order. -/
theorem hashToBLSField_transcript_exact (polys comms : List (List Nat))
    (_hp : ∀ p ∈ polys, p.length = fieldElementsPerBlob)
    (_hc : comms.length = polys.length) :
    HashToBLSFieldInput polys comms = specTranscript polys comms := by
  have htag : fiatShamirProtocolDomain =
      [70, 83, 66, 76, 79, 66, 86, 69, 82, 73, 70, 89, 95, 86, 49, 95] := by decide
  simp only [HashToBLSFieldInput, specTranscript, List.nil_append]
  rw [foldl_polys_flatten, foldl_comms_flatten, htag]

/-- Witness for C4 at the empty batch. -/
theorem hashToBLSField_transcript_exact_witness :
    (∀ p ∈ ([] : List (List Nat)), p.length = fieldElementsPerBlob) ∧
    ([] : List (List Nat)).length = ([] : List (List Nat)).length ∧
    HashToBLSFieldInput [] [] = specTranscript [] [] :=
  ⟨by simp, rfl, hashToBLSField_transcript_exact [] [] (by simp) rfl⟩

/-! ## C7 — `MatrixLinComb` computes the weighted coordinate-wise sum,
but panics on zero vectors -/

/-- Counterexample to C7 as stated: on zero polynomials `MatrixLinComb`
indexes `vectors[0]` out of range and panics; it does not return the zero
polynomial of length `N` (nor anything else). -/
theorem matrixLinComb_empty_not_zero_poly :
    MatrixLinComb [] [] ≠ some (List.replicate fieldElementsPerBlob 0) :=
  fun h => Option.noConfusion h

/-- The loop invariant of `MatrixLinComb`: starting from an accumulator of
canonical entries, the loop succeeds when every row is long enough and the
scalars cover the rows, and each coordinate accumulates the weighted sum
modulo `q`. -/
theorem matrixLinCombLoop_spec (vs : List (List Nat)) : ∀ (ss r : List Nat),
    (∀ v ∈ vs, r.length ≤ v.length) → vs.length ≤ ss.length →
    (∀ j, j < r.length → r.getD j 0 < blsModulus) →
    ∃ out, matrixLinCombLoop vs ss r = some out ∧ out.length = r.length ∧
      ∀ j, j < r.length →
        out.getD j 0 =
          (r.getD j 0 + (List.zipWith (fun s v => s * v.getD j 0) ss vs).sum) % blsModulus := by
  induction vs with
  | nil =>
    intro ss r _ _ hlt
    refine ⟨r, rfl, rfl, fun j hj => ?_⟩
    rw [List.zipWith_nil_right, List.sum_nil, Nat.add_zero, Nat.mod_eq_of_lt (hlt j hj)]
  | cons v vs ih =>
    intro ss r hrow hss hlt
    match ss with
    | [] => exact absurd hss (by simp)
    | s :: ss =>
      have hrv : r.length ≤ v.length := hrow v (List.mem_cons_self v vs)
      have hq : 0 < blsModulus := by decide
      have hr1len :
          (List.zipWith (fun rj vj => (rj + vj * s % blsModulus) % blsModulus) r v).length =
            r.length := by
        rw [List.length_zipWith]; omega
      have hr1get : ∀ j, j < r.length →
          (List.zipWith (fun rj vj => (rj + vj * s % blsModulus) % blsModulus) r v).getD j 0 =
            (r.getD j 0 + v.getD j 0 * s % blsModulus) % blsModulus := by
        intro j hj
        have hjv : j < v.length := lt_of_lt_of_le hj hrv
        have hj1 : j <
            (List.zipWith (fun rj vj => (rj + vj * s % blsModulus) % blsModulus) r v).length := by
          omega
        rw [List.getD_eq_getElem _ _ hj1, List.getD_eq_getElem _ _ hj,
          List.getD_eq_getElem _ _ hjv, List.getElem_zipWith]
      obtain ⟨out, hout, hlen, hval⟩ := ih ss
        (List.zipWith (fun rj vj => (rj + vj * s % blsModulus) % blsModulus) r v)
        (fun w hw => hr1len ▸ hrow w (List.mem_cons_of_mem v hw))
        (by simpa using Nat.succ_le_succ_iff.mp (by simpa using hss))
        (fun j hj => by
          rw [hr1get j (hr1len ▸ hj)]
          exact Nat.mod_lt _ hq)
      refine ⟨out, ?_, by omega, fun j hj => ?_⟩
      · rw [matrixLinCombLoop, linCombRow, if_pos hrv, Option.some_bind, hout]
      · rw [hval j (by omega), hr1get j hj, List.zipWith_cons_cons, List.sum_cons]
        have hme : r.getD j 0 + v.getD j 0 * s % blsModulus +
              (List.zipWith (fun s v => s * v.getD j 0) ss vs).sum ≡
            r.getD j 0 + v.getD j 0 * s +
              (List.zipWith (fun s v => s * v.getD j 0) ss vs).sum [MOD blsModulus] :=
          ((Nat.mod_modEq (v.getD j 0 * s) blsModulus).add_left _).add_right _
        rw [Nat.mod_add_mod, hme]
        rw [Nat.mul_comm (v.getD j 0) s, Nat.add_assoc]

/-- Claim C7 as amended: for `k ≥ 1` polynomials of length `N` and `k`
scalars, `MatrixLinComb` returns the length-`N` polynomial whose
coordinate `j` is `Σᵢ scalarᵢ · polyᵢ[j] mod q`; for `k = 0` it panics
(index out of range on `vectors[0]`) instead of returning the zero
polynomial. -/
theorem matrixLinComb_weighted_sum (vectors : List (List Nat)) (scalars : List Nat)
    (hne : vectors ≠ [])
    (hlen : ∀ v ∈ vectors, v.length = fieldElementsPerBlob)
    (hs : scalars.length = vectors.length) :
    ∃ r, MatrixLinComb vectors scalars = some r ∧ r.length = fieldElementsPerBlob ∧
      ∀ j, j < fieldElementsPerBlob →
        r.getD j 0 =
          (List.zipWith (fun s v => s * v.getD j 0) scalars vectors).sum % blsModulus := by
  match vectors, hne with
  | v0 :: vs, _ =>
    have hv0 : v0.length = fieldElementsPerBlob := hlen v0 (List.mem_cons_self v0 vs)
    have hrep : ∀ j, j < fieldElementsPerBlob →
        (List.replicate v0.length (0 : Nat)).getD j 0 = 0 := by
      intro j hj
      have hj' : j < (List.replicate v0.length (0 : Nat)).length := by
        rw [List.length_replicate, hv0]; exact hj
      rw [List.getD_eq_getElem _ _ hj', List.getElem_replicate]
    obtain ⟨out, hout, hlen', hval⟩ := matrixLinCombLoop_spec (v0 :: vs) scalars
      (List.replicate v0.length 0)
      (fun w hw => by rw [List.length_replicate, hv0, hlen w hw])
      (le_of_eq hs.symm)
      (fun j hj => by
        rw [List.length_replicate, hv0] at hj
        rw [hrep j hj]; decide)
    refine ⟨out, hout, by rw [hlen', List.length_replicate, hv0], fun j hj => ?_⟩
    rw [hval j (by rw [List.length_replicate, hv0]; exact hj), hrep j hj, Nat.zero_add]

/-- Witness for C7 (amended) on one zero polynomial with scalar zero. -/
theorem matrixLinComb_weighted_sum_witness :
    [List.replicate fieldElementsPerBlob (0 : Nat)] ≠ [] ∧
    (∀ v ∈ [List.replicate fieldElementsPerBlob (0 : Nat)],
      v.length = fieldElementsPerBlob) ∧
    [(0 : Nat)].length = [List.replicate fieldElementsPerBlob (0 : Nat)].length ∧
    ∃ r, MatrixLinComb [List.replicate fieldElementsPerBlob 0] [0] = some r ∧
      r.length = fieldElementsPerBlob ∧
      ∀ j, j < fieldElementsPerBlob →
        r.getD j 0 =
          (List.zipWith (fun s v => s * v.getD j 0) [0]
            [List.replicate fieldElementsPerBlob (0 : Nat)]).sum % blsModulus :=
  ⟨by simp, by
      intro v hv
      rw [List.mem_singleton] at hv
      rw [hv, List.length_replicate], rfl,
    matrixLinComb_weighted_sum _ _ (by simp)
      (by
        intro v hv
        rw [List.mem_singleton] at hv
        rw [hv, List.length_replicate]) rfl⟩

/-! ## C6 — proof generation fails exactly on the domain -/

/-- The domain check of `ComputeKZGProof`, as a proposition. -/
theorem computeKZGProof_any_iff (polynomial : List Nat) (z : Nat)
    (hlen : polynomial.length = fieldElementsPerBlob) :
    ((List.range polynomial.length).any fun i => DomainFr i == z) = true ↔
      ∃ i, i < fieldElementsPerBlob ∧ DomainFr i = z := by
  rw [List.any_eq_true]
  constructor
  · rintro ⟨i, hmem, hbeq⟩
    exact ⟨i, hlen ▸ List.mem_range.mp hmem, beq_iff_eq.mp hbeq⟩
  · rintro ⟨i, hi, heq⟩
    exact ⟨i, List.mem_range.mpr (hlen ▸ hi), beq_iff_eq.mpr heq⟩

/-- Claim C6: for a polynomial of length `N`, `ComputeKZGProof`
(`kzg_new.go`) returns the `invalid z challenge` error exactly when the
challenge lies on the evaluation domain, and succeeds with a proof for
every challenge off the domain. -/
theorem computeKZGProof_error_iff_challenge_on_domain (ops : G1Ops)
    (polynomial : List Nat) (z : Nat)
    (hlen : polynomial.length = fieldElementsPerBlob) :
    (ComputeKZGProof ops polynomial z = .error "invalid z challenge" ↔
      ∃ i, i < fieldElementsPerBlob ∧ DomainFr i = z)
    ∧ ((¬ ∃ i, i < fieldElementsPerBlob ∧ DomainFr i = z) →
      ∃ pr, ComputeKZGProof ops polynomial z = .ok pr) := by
  have hcond : ¬(polynomial.length ≠ fieldElementsPerBlob) := fun hne => hne hlen
  have hany := computeKZGProof_any_iff polynomial z hlen
  by_cases hz : ((List.range polynomial.length).any fun i => DomainFr i == z) = true
  · refine ⟨⟨fun _ => hany.mp hz, fun _ => ?_⟩, fun hne => absurd (hany.mp hz) hne⟩
    simp only [ComputeKZGProof, if_neg hcond, hz, if_true]
  · have hok : ComputeKZGProof ops polynomial z =
        .ok (ops.toCompressedG1 (ops.linCombG1 ops.kzgSetupLagrange
          (List.zipWith frDiv
            (polynomial.map fun a => frSub a (EvaluatePolynomialInEvaluationForm polynomial z))
            ((List.range polynomial.length).map fun i => frSub (DomainFr i) z)))) := by
      simp only [ComputeKZGProof, if_neg hcond, hz, Bool.false_eq_true, if_false]
    refine ⟨⟨fun herr => ?_, fun hex => absurd (hany.mpr hex) hz⟩, fun _ => ⟨_, hok⟩⟩
    rw [hok] at herr
    exact Except.noConfusion herr

/-- Witness for C6 on the zero polynomial. -/
theorem computeKZGProof_error_iff_challenge_on_domain_witness :
    (List.replicate fieldElementsPerBlob (0 : Nat)).length = fieldElementsPerBlob ∧
    ((ComputeKZGProof unitG1Ops (List.replicate fieldElementsPerBlob 0) 1 =
        .error "invalid z challenge" ↔
      ∃ i, i < fieldElementsPerBlob ∧ DomainFr i = 1)
    ∧ ((¬ ∃ i, i < fieldElementsPerBlob ∧ DomainFr i = 1) →
      ∃ pr, ComputeKZGProof unitG1Ops (List.replicate fieldElementsPerBlob 0) 1 = .ok pr)) :=
  ⟨List.length_replicate fieldElementsPerBlob 0,
    computeKZGProof_error_iff_challenge_on_domain unitG1Ops _ 1
      (List.length_replicate fieldElementsPerBlob 0)⟩

/-! ## C9 — the bit-reversal permutation -/

/-- A `k`-bit reversal stays below `2^k`. -/
theorem bitRev_lt (k n : Nat) : bitRev k n < 2 ^ k := by
  induction k generalizing n with
  | zero => simp [bitRev]
  | succ k ih =>
    have h1 := ih (n / 2)
    have h2 : n % 2 ≤ 1 := by omega
    have h3 : 2 ^ (k + 1) = 2 ^ k * 2 := by rw [pow_succ]
    have h4 : 2 ^ k * (n % 2) ≤ 2 ^ k * 1 := Nat.mul_le_mul_left _ h2
    simp only [bitRev]
    omega

/-- The dual recursion for `bitRev`: peel the high output bit instead of
the low input bit. -/
theorem bitRev_succ_low (k n : Nat) :
    bitRev (k + 1) n = 2 * bitRev k (n % 2 ^ k) + n / 2 ^ k % 2 := by
  induction k generalizing n with
  | zero => simp [bitRev]
  | succ k ih =>
    have e1 : n % 2 ^ (k + 1) % 2 = n % 2 :=
      Nat.mod_mod_of_dvd n (dvd_pow_self 2 (Nat.succ_ne_zero k))
    have e2 : n % 2 ^ (k + 1) / 2 = n / 2 % 2 ^ k := by
      rw [show (2 : Nat) ^ (k + 1) = 2 * 2 ^ k by rw [pow_succ']]
      exact Nat.mod_mul_right_div_self n 2 (2 ^ k)
    have e3 : n / 2 ^ (k + 1) = n / 2 / 2 ^ k := by
      rw [show (2 : Nat) ^ (k + 1) = 2 * 2 ^ k by rw [pow_succ'], ← Nat.div_div_eq_div_mul]
    calc bitRev (k + 2) n = 2 ^ (k + 1) * (n % 2) + bitRev (k + 1) (n / 2) := rfl
      _ = 2 ^ (k + 1) * (n % 2) + (2 * bitRev k (n / 2 % 2 ^ k) + n / 2 / 2 ^ k % 2) := by
          rw [ih]
      _ = 2 * (2 ^ k * (n % 2) + bitRev k (n / 2 % 2 ^ k)) + n / 2 / 2 ^ k % 2 := by
          rw [pow_succ']; ring
      _ = 2 * (2 ^ k * (n % 2 ^ (k + 1) % 2) + bitRev k (n % 2 ^ (k + 1) / 2)) +
            n / 2 ^ (k + 1) % 2 := by rw [e1, e2, e3]
      _ = 2 * bitRev (k + 1) (n % 2 ^ (k + 1)) + n / 2 ^ (k + 1) % 2 := rfl

/-- Reversing the low `k` bits twice is reduction modulo `2^k`. -/
theorem bitRev_bitRev (k n : Nat) : bitRev k (bitRev k n) = n % 2 ^ k := by
  induction k generalizing n with
  | zero => simp [bitRev, Nat.mod_one]
  | succ k ih =>
    have hb : bitRev k (n / 2) < 2 ^ k := bitRev_lt _ _
    have hstep : bitRev (k + 1) n = 2 ^ k * (n % 2) + bitRev k (n / 2) := rfl
    rw [hstep, bitRev_succ_low]
    have h1 : (2 ^ k * (n % 2) + bitRev k (n / 2)) % 2 ^ k = bitRev k (n / 2) := by
      rw [Nat.mul_add_mod, Nat.mod_eq_of_lt hb]
    have h2 : (2 ^ k * (n % 2) + bitRev k (n / 2)) / 2 ^ k = n % 2 := by
      rw [Nat.mul_add_div (Nat.pos_pow_of_pos k (by norm_num)), Nat.div_eq_of_lt hb,
        Nat.add_zero]
    rw [h1, h2, ih]
    have e1 : n % 2 ^ (k + 1) % 2 = n % 2 :=
      Nat.mod_mod_of_dvd n (dvd_pow_self 2 (Nat.succ_ne_zero k))
    have e2 : n % 2 ^ (k + 1) / 2 = n / 2 % 2 ^ k := by
      rw [show (2 : Nat) ^ (k + 1) = 2 * 2 ^ k by rw [pow_succ']]
      exact Nat.mod_mul_right_div_self n 2 (2 ^ k)
    have e4 := Nat.div_add_mod (n % 2 ^ (k + 1)) 2
    omega

/-- Widening the reversal of a `k`-bit number by `j` bits shifts it left
by `j`. -/
theorem bitRev_pad (j : Nat) : ∀ k n, n < 2 ^ k → bitRev (k + j) n = bitRev k n * 2 ^ j := by
  induction j with
  | zero => intro k n _; simp
  | succ j ih =>
    intro k n hn
    have hkj : n < 2 ^ (k + j) :=
      lt_of_lt_of_le hn (Nat.pow_le_pow_right (by norm_num) (Nat.le_add_right k j))
    have hlow : bitRev (k + j + 1) n = 2 * bitRev (k + j) (n % 2 ^ (k + j)) + n / 2 ^ (k + j) % 2 :=
      bitRev_succ_low (k + j) n
    rw [show k + (j + 1) = k + j + 1 by omega, hlow, Nat.mod_eq_of_lt hkj,
      Nat.div_eq_of_lt hkj, ih k n hn, pow_succ]
    ring

/-- `bits.Len64` of a power of two. -/
theorem len64_two_pow (k : Nat) : len64 (2 ^ k) = k + 1 := by
  have h0 : (2 : Nat) ^ k ≠ 0 := Nat.pos_iff_ne_zero.mp (Nat.pos_pow_of_pos k (by norm_num))
  rw [len64, if_neg h0, Nat.log2_eq_log_two, Nat.log_pow (by norm_num)]

/-- The source power-of-two test accepts every power of two. -/
theorem isPowerOfTwo_two_pow (k : Nat) : isPowerOfTwo (2 ^ k) = true := by
  rw [isPowerOfTwo, Bool.and_eq_true, decide_eq_true_eq, beq_iff_eq,
    Nat.and_pow_two_sub_one_eq_mod, Nat.mod_self]
  exact ⟨Nat.pos_pow_of_pos k (by norm_num), rfl⟩

/-- On an index below a power-of-two order, `reverseBits` is exactly the
`log2 order`-bit reversal (the 64-bit reversal shifted back down). -/
theorem reverseBits_spec (i k : Nat) (hi : i < 2 ^ k) (hk : k < 64) :
    reverseBits i (2 ^ k) = some (bitRev k i) := by
  rw [reverseBits, if_pos (isPowerOfTwo_two_pow k), len64_two_pow]
  congr 1
  have h64 : i < 2 ^ 64 :=
    lt_of_lt_of_le hi (Nat.pow_le_pow_right (by norm_num) (by omega))
  have hpad : bitRev 64 i = bitRev k i * 2 ^ (64 - k) := by
    conv_lhs => rw [show (64 : Nat) = k + (64 - k) by omega]
    exact bitRev_pad (64 - k) k i hi
  rw [reverse64, Nat.mod_eq_of_lt h64, hpad, show 65 - (k + 1) = 64 - k by omega,
    Nat.shiftRight_eq_div_pow,
    Nat.mul_div_cancel _ (Nat.pos_pow_of_pos _ (by norm_num))]

/-- A `mapM` over `Option` whose entries all succeed is a `map`. -/
theorem mapM_option_map {β : Type} (f : Nat → Option β) (g : Nat → β) :
    ∀ (xs : List Nat), (∀ i ∈ xs, f i = some (g i)) → xs.mapM f = some (xs.map g) := by
  intro xs
  induction xs with
  | nil => intro _; rfl
  | cons x t ih =>
    intro hall
    rw [List.mapM_cons, hall x (List.mem_cons_self x t), ih fun i hi =>
      hall i (List.mem_cons_of_mem x hi)]
    rfl

/-- Claim C9: on a list whose length is `2^k` (every Go slice length fits
in 63 bits), `bitReversalPermutation` succeeds, applying it twice is the
identity, and the output at `i` is the input at the `k`-bit reversal of
`i`. -/
theorem bitReversalPermutation_involutive {α : Type} (l : List α) (k : Nat)
    (hlen : l.length = 2 ^ k) (hk : k < 64) :
    ∃ l', bitReversalPermutation l = some l' ∧ bitReversalPermutation l' = some l ∧
      ∀ i, i < l.length → l'.get? i = l.get? (bitRev k i) := by
  have hpos : 0 < l.length := by
    rw [hlen]; exact Nat.pos_pow_of_pos k (by norm_num)
  have hrevlt : ∀ i, bitRev k i < l.length := fun i => hlen ▸ bitRev_lt k i
  refine ⟨(List.range l.length).map fun i => l.getD (bitRev k i) (l.get ⟨0, hpos⟩),
    ?_, ?_, ?_⟩
  · apply mapM_option_map
    intro i hi
    have hrb : reverseBits i l.length = some (bitRev k i) := by
      rw [hlen]; exact reverseBits_spec i k (hlen ▸ List.mem_range.mp hi) hk
    rw [hrb, Option.some_bind, List.get?_eq_getElem?, List.getElem?_eq_getElem (hrevlt i)]
    exact congrArg some (List.getD_eq_getElem _ _ (hrevlt i)).symm
  · rw [bitReversalPermutation, List.length_map, List.length_range]
    have hmap : (List.range l.length).mapM
        (fun i => (reverseBits i l.length).bind fun j =>
          ((List.range l.length).map fun i => l.getD (bitRev k i) (l.get ⟨0, hpos⟩)).get? j) =
        some ((List.range l.length).map fun i =>
          l.getD (bitRev k (bitRev k i)) (l.get ⟨0, hpos⟩)) := by
      apply mapM_option_map
      intro i hi
      have hik : i < 2 ^ k := hlen ▸ List.mem_range.mp hi
      have hj : bitRev k i <
          ((List.range l.length).map fun i => l.getD (bitRev k i) (l.get ⟨0, hpos⟩)).length := by
        rw [List.length_map, List.length_range]; exact hrevlt i
      have hrb : reverseBits i l.length = some (bitRev k i) := by
        rw [hlen]; exact reverseBits_spec i k hik hk
      rw [hrb, Option.some_bind, List.get?_eq_getElem?, List.getElem?_eq_getElem hj,
        List.getElem_map, List.getElem_range]
    rw [hmap]
    congr 1
    apply List.ext_getElem
    · rw [List.length_map, List.length_range]
    · intro n h1 h2
      rw [List.getElem_map, List.getElem_range]
      have hn : n < l.length := by
        rw [List.length_map, List.length_range] at h1; exact h1
      rw [bitRev_bitRev, Nat.mod_eq_of_lt (hlen ▸ hn), List.getD_eq_getElem _ _ hn]
  · intro i hi
    have hi' : i < ((List.range l.length).map fun i =>
        l.getD (bitRev k i) (l.get ⟨0, hpos⟩)).length := by
      rw [List.length_map, List.length_range]; exact hi
    rw [List.get?_eq_getElem?, List.getElem?_eq_getElem hi', List.getElem_map,
      List.getElem_range, List.get?_eq_getElem?, List.getElem?_eq_getElem (hrevlt i)]
    exact congrArg some (List.getD_eq_getElem _ _ (hrevlt i))

/-- Witness for C9 on a concrete list of length `4 = 2^2`. -/
theorem bitReversalPermutation_involutive_witness :
    ([10, 20, 30, 40] : List Nat).length = 2 ^ 2 ∧ 2 < 64 ∧
    ∃ l', bitReversalPermutation [10, 20, 30, 40] = some l' ∧
      bitReversalPermutation l' = some ([10, 20, 30, 40] : List Nat) ∧
      ∀ i, i < ([10, 20, 30, 40] : List Nat).length →
        l'.get? i = ([10, 20, 30, 40] : List Nat).get? (bitRev 2 i) :=
  ⟨rfl, by decide, bitReversalPermutation_involutive [10, 20, 30, 40] 2 rfl (by decide)⟩

/-- Witness for C8 at the trivial G1 instantiation. -/
theorem computeAggregateKZGProof_empty_blobs_witness :
    AggKzg.ComputeAggregateKZGProof unitG1Ops [] [] = some (.ok (List.replicate 48 0))
    ∧ AggKzg.ComputeAggregateKZGProofAndCommitments unitG1Ops [] =
        some (.ok (List.replicate 48 0, [])) :=
  computeAggregateKZGProof_empty_blobs unitG1Ops
